import Mathlib

/-!
Verification of the reactive-signal subsystem of the holochain-utils
repository (packages/signals/src/holochain.ts) against its natural-language
specification.  The TypeScript code is shallowly embedded: hashes are opaque
(type-tag, content) pairs because base64 encoding of a HoloHash is injective,
JS stable `Array.sort` is modelled by a stable insertion sort (any two stable
sorts driven by the same comparator coincide), and the closure-captured
mutable variables of each signal factory become explicit state records with
one Lean function per callback.
-/

/-- Hash type prefix of a HoloHash (AGENT, ENTRY, ACTION, ... as in
holochain-utils `HashType`). -/
inductive HashTypeM where
  | agent
  | entry
  | action
  | external
deriving DecidableEq, Repr

/-- A HoloHash: a 3-byte type prefix plus a 36-byte core, modelled as the
type tag together with an opaque core value.  `encodeHashToBase64` is
injective on the raw bytes, so base64-string equality in the source is
modelled as structural equality here. -/
structure HoloHashM where
  hashType : HashTypeM
  core : Nat
deriving DecidableEq, Repr

/-- Model of holochain-utils `retype`: replace the 3-byte type prefix,
keeping the core bytes. -/
def retype (hash : HoloHashM) (t : HashTypeM) : HoloHashM :=
  { hash with hashType := t }

/-- Model of holochain-utils `getHashType`: read the type prefix. -/
def getHashType (hash : HoloHashM) : HashTypeM :=
  hash.hashType

/-- Errors carried by an error-state signal: the `NotFoundError` class, or an
arbitrary thrown cause (opaque, modelled by a number). -/
inductive ErrM where
  | notFoundE
  | causeE (cause : Nat)
deriving DecidableEq, Repr

/-- The `AsyncResult<T>` tri-state union from the async-signals package. -/
inductive AsyncResultM (T : Type) where
  | pending
  | completed (value : T)
  | error (error : ErrM)
deriving DecidableEq, Repr

/-- A `Link` as used by the link signals; only the fields the embedded logic
reads (`create_link_hash` for identity, `timestamp` for ordering) plus the
addresses are kept. -/
structure LinkM where
  base : HoloHashM
  target : HoloHashM
  timestamp : Int
  create_link_hash : HoloHashM
deriving DecidableEq, Repr

/-- A `SignedActionHashed<Delete>`: its own hash, timestamp, and the
`deletes_address` field of the Delete action. -/
structure SignedDeleteM where
  hash : HoloHashM
  timestamp : Int
  deletes_address : HoloHashM
deriving DecidableEq, Repr

/-- A `SignedActionHashed<CreateLink>`: its own hash, timestamp and the
`base_address` of the CreateLink action. -/
structure SignedCreateLinkM where
  hash : HoloHashM
  timestamp : Int
  base_address : HoloHashM
deriving DecidableEq, Repr

/-- A `SignedActionHashed<DeleteLink>`: its own hash and timestamp. -/
structure SignedDeleteLinkM where
  hash : HoloHashM
  timestamp : Int
deriving DecidableEq, Repr

/-- Model of `areArrayHashesEqual`: length check followed by a pointwise
base64 comparison (base64 equality = structural equality). -/
def areArrayHashesEqual (array1 array2 : List HoloHashM) : Bool :=
  if array1.length != array2.length then false
  else (List.zip array1 array2).all fun p => p.1 == p.2

/-- One insertion into the backing entry list of a JS `Map` keyed by a
HoloHash (as `HoloHashMap` is): an existing key keeps its position but its
value is replaced; a new key is appended. -/
def holoHashMapInsert {A : Type} (k : HoloHashM) (v : A) :
    List (HoloHashM × A) → List (HoloHashM × A)
  | [] => [(k, v)]
  | (k0, v0) :: rest =>
    if k0 == k then (k0, v) :: rest else (k0, v0) :: holoHashMapInsert k v rest

/-- Model of `uniquifyLinks`: insert every link into a `HoloHashMap` keyed by
`create_link_hash` and read the values back in insertion order (first
occurrence keeps its position, last occurrence wins the value). -/
def uniquifyLinks (links : List LinkM) : List LinkM :=
  (links.foldl (fun m l => holoHashMapInsert l.create_link_hash l m) []).map (·.2)

/-- Model of `uniquifyActions` (for Delete actions): same `HoloHashMap`
construction keyed by the action hash. -/
def uniquifyActions (actions : List SignedDeleteM) : List SignedDeleteM :=
  (actions.foldl (fun m a => holoHashMapInsert a.hash a m) []).map (·.2)

/-- The source comparator `sortLinksByTimestampAscending`:
`(linkA, linkB) => linkA.timestamp - linkB.timestamp`. -/
def sortLinksByTimestampAscending (linkA linkB : LinkM) : Int :=
  linkA.timestamp - linkB.timestamp

/-- The source comparator `sortDeletedLinksByTimestampAscending` on pairs of
a CreateLink action and its DeleteLink actions. -/
def sortDeletedLinksByTimestampAscending
    (linkA linkB : SignedCreateLinkM × List SignedDeleteLinkM) : Int :=
  linkA.1.timestamp - linkB.1.timestamp

/-- The source comparator `sortActionsByTimestampAscending`, used on the
nested DeleteLink lists. -/
def sortActionsByTimestampAscending (actionA actionB : SignedDeleteLinkM) : Int :=
  actionA.timestamp - actionB.timestamp

/-- Insert `x` into an already comparator-sorted list, after every element
that compares ≤ 0 against it.  This is the insertion step of a stable sort
driven by a JS comparator. -/
def jsInsertSorted {A : Type} (cmp : A → A → Int) (x : A) : List A → List A
  | [] => [x]
  | y :: ys =>
    if cmp y x ≤ 0 then y :: jsInsertSorted cmp x ys else x :: y :: ys

/-- Model of JS `Array.prototype.sort(cmp)`: ECMAScript sort is stable, and a
stable sort is uniquely determined by the comparator, so stable insertion
sort is an exact model. -/
def jsStableSort {A : Type} (cmp : A → A → Int) (l : List A) : List A :=
  l.foldl (fun acc x => jsInsertSorted cmp x acc) []

/-! ## collectionSignal

Closure state of one `collectionSignal`: the shared `active` flag, the
session-local `links` accumulator (`undefined` before the first publish) and
the `Signal.State` value.  Each handler returns the updated state together
with a Bool recording whether `signal.set` was called (a publish). -/

structure CollectionState where
  active : Bool
  links : Option (List LinkM)
  result : AsyncResultM (List LinkM)
deriving DecidableEq, Repr

/-- Model of `collectionSignal`'s `maybeSet`: discarded unless `active`;
dedup by `create_link_hash` then stable-sort by timestamp; publish only when
there is no cached value or the identifier sequences differ. -/
def coll_maybeSet (s : CollectionState) (newLinksValue : List LinkM) :
    CollectionState × Bool :=
  if !s.active then (s, false)
  else
    let orderedNewLinks :=
      jsStableSort sortLinksByTimestampAscending (uniquifyLinks newLinksValue)
    let publish : Bool :=
      match s.links with
      | none => true
      | some links =>
        !areArrayHashesEqual
          (orderedNewLinks.map (·.create_link_hash))
          (links.map (·.create_link_hash))
    if publish then
      ({ s with links := some orderedNewLinks,
                result := .completed orderedNewLinks }, true)
    else (s, false)

/-- Model of `collectionSignal`'s fetch `.catch` handler: it writes the error
state unconditionally — the source performs no `active` check here. -/
def coll_onFetchError (s : CollectionState) (e : Nat) : CollectionState × Bool :=
  ({ s with result := .error (.causeE e) }, true)

/-- Model of `collectionSignal`'s `unwatched` callback: reset to pending and
clear the active flag. -/
def coll_unwatched (s : CollectionState) : CollectionState :=
  { s with result := .pending, active := false }

/-- Model of `collectionSignal`'s `watched` callback's synchronous state
change: set `active` and start a fresh session-local `links` accumulator. -/
def coll_watched (s : CollectionState) : CollectionState :=
  { s with active := true, links := none }

/-! ## liveLinksSignal -/

structure LiveLinksState where
  active : Bool
  links : Option (List LinkM)
  result : AsyncResultM (List LinkM)
deriving DecidableEq, Repr

/-- Model of `liveLinksSignal`'s `maybeSet` (textually the same logic as the
collection one, but over the outer-scoped `links` accumulator). -/
def liveLinks_maybeSet (s : LiveLinksState) (newLinksValue : List LinkM) :
    LiveLinksState × Bool :=
  if !s.active then (s, false)
  else
    let orderedNewLinks :=
      jsStableSort sortLinksByTimestampAscending (uniquifyLinks newLinksValue)
    let publish : Bool :=
      match s.links with
      | none => true
      | some links =>
        !areArrayHashesEqual
          (orderedNewLinks.map (·.create_link_hash))
          (links.map (·.create_link_hash))
    if publish then
      ({ s with links := some orderedNewLinks,
                result := .completed orderedNewLinks }, true)
    else (s, false)

/-- Model of `liveLinksSignal`'s `unwatched` callback: pending, inactive, and
the outer `links` accumulator is cleared. -/
def liveLinks_unwatched (s : LiveLinksState) : LiveLinksState :=
  { s with result := .pending, active := false, links := none }

/-- Constructor prologue of `liveLinksSignal` and `deletedLinksSignal`: an
AGENT-typed base address is retyped into the ENTRY address space. -/
def liveLinks_innerBase (baseAddress : HoloHashM) : HoloHashM :=
  if getHashType baseAddress = HashTypeM.agent then retype baseAddress HashTypeM.entry
  else baseAddress

/-- The `LinkCreated` match condition of `liveLinksSignal`: the link type
matches, and either the event's base equals `innerBaseAddress` or the event's
base retyped to AGENT equals `innerBaseAddress`. -/
def liveLinks_matchesLinkCreated (linkType : Nat) (innerBaseAddress : HoloHashM)
    (evLinkType : Nat) (evBase : HoloHashM) : Bool :=
  linkType == evLinkType &&
    (evBase == innerBaseAddress ||
      retype evBase HashTypeM.agent == innerBaseAddress)

/-! ## deletesForEntrySignal -/

structure DeletesState where
  active : Bool
  deletes : Option (List SignedDeleteM)
  result : AsyncResultM (List SignedDeleteM)
deriving DecidableEq, Repr

/-- Model of `deletesForEntrySignal`'s `onSignal` handler for `EntryDeleted`
events: inactive sessions discard the event; on a `deletes_address` match the
event's action is appended (deduplicated by action hash) and the result is
published unconditionally — there is no comparison with the previous value. -/
def deletesForEntry_onEntryDeleted (originalActionHash : HoloHashM)
    (s : DeletesState) (action : SignedDeleteM) : DeletesState × Bool :=
  if !s.active then (s, false)
  else if action.deletes_address == originalActionHash then
    let lastDeletes := s.deletes.getD []
    let ndeletes := uniquifyActions (lastDeletes ++ [action])
    ({ s with deletes := some ndeletes, result := .completed ndeletes }, true)
  else (s, false)

/-- Model of `deletesForEntrySignal`'s `unwatched` callback. -/
def deletes_unwatched (s : DeletesState) : DeletesState :=
  { s with result := .pending, active := false, deletes := none }

/-! ## latestVersionOfEntrySignal, allRevisionsOfEntrySignal,
queryLiveEntriesSignal (unwatched callbacks, needed for the reset claim) -/

structure LatestVersionState (T : Type) where
  active : Bool
  latestVersion : Option T
  result : AsyncResultM T
deriving DecidableEq, Repr

def latestVersion_unwatched {T : Type} (s : LatestVersionState T) :
    LatestVersionState T :=
  { s with result := .pending, active := false, latestVersion := none }

structure AllRevisionsState (T : Type) where
  active : Bool
  allRevisions : Option (List T)
  result : AsyncResultM (List T)
deriving DecidableEq, Repr

def allRevisions_unwatched {T : Type} (s : AllRevisionsState T) :
    AllRevisionsState T :=
  { s with result := .pending, active := false, allRevisions := none }

structure QueryEntriesState (T : Type) where
  active : Bool
  queriedEntries : Option (List T)
  result : AsyncResultM (List T)
deriving DecidableEq, Repr

def query_unwatched {T : Type} (s : QueryEntriesState T) : QueryEntriesState T :=
  { s with result := .pending, active := false, queriedEntries := none }

/-! ## deletedLinksSignal -/

/-- An element of the deleted-links value: a CreateLink action paired with
the list of DeleteLink actions that deleted it. -/
abbrev DeletedPairM := SignedCreateLinkM × List SignedDeleteLinkM

/-- Canonical form built by `deletedLinksSignal`'s `maybeSet`: sort the outer
list by the CreateLink timestamp, then sort every nested DeleteLink list by
its timestamp. -/
def canonDeletedLinks (newDeletedLinks : List DeletedPairM) : List DeletedPairM :=
  (jsStableSort sortDeletedLinksByTimestampAscending newDeletedLinks).map
    fun p => (p.1, jsStableSort sortActionsByTimestampAscending p.2)

/-- The early-return loop of `deletedLinksSignal`'s `maybeSet`, walking the
sorted new list positionally against the previous value: it aborts
(`return`) as soon as the previous list has no entry at the current index
(`!deletedLinks[i]`) or the nested deletion hash sequences differ. -/
def dlAbortAux : List DeletedPairM → List DeletedPairM → Bool
  | [], _ => false
  | _ :: _, [] => true
  | n :: ns, p :: ps =>
    if !areArrayHashesEqual (n.2.map (·.hash)) (p.2.map (·.hash)) then true
    else dlAbortAux ns ps

/-- Outcome of one `maybeSet` call of `deletedLinksSignal`. -/
inductive DLOutcome where
  | aborted
  | unchanged
  | published (value : List DeletedPairM)
deriving DecidableEq, Repr

/-- Model of `deletedLinksSignal`'s `maybeSet` (active case): canonicalize,
run the positional nested-list comparison loop (which may abort the whole
update), then publish only when the outer CreateLink hash sequences differ
(or there is no previous value, in which case the loop is skipped by its
`deletedLinks !== undefined` guard). -/
def deletedLinks_maybeSet (deletedLinks : Option (List DeletedPairM))
    (newDeletedLinks : List DeletedPairM) : DLOutcome :=
  let orderedNewLinks := canonDeletedLinks newDeletedLinks
  match deletedLinks with
  | none => .published orderedNewLinks
  | some prev =>
    if dlAbortAux orderedNewLinks prev then .aborted
    else if !areArrayHashesEqual (orderedNewLinks.map (·.1.hash))
        (prev.map (·.1.hash)) then .published orderedNewLinks
    else .unchanged

structure DeletedLinksState where
  active : Bool
  deletedLinks : Option (List DeletedPairM)
  result : AsyncResultM (List DeletedPairM)
deriving DecidableEq, Repr

/-- Model of `deletedLinksSignal`'s `unwatched` callback. -/
def deletedLinks_unwatched (s : DeletedLinksState) : DeletedLinksState :=
  { s with result := .pending, active := false, deletedLinks := none }

/-! ## immutableEntrySignal -/

/-- Result of one `fetch()` call of `immutableEntrySignal`: a value, a
resolved `undefined` (entry not found yet), or a rejection with a cause. -/
inductive FetchOutcome (T : Type) where
  | found (value : T)
  | notFound
  | threw (cause : Nat)
deriving DecidableEq, Repr

/-- Model of `immutableEntrySignal`'s `tryFetch` retry chain.  `fetchAt k` is
the outcome of the (k+1)-th fetch attempt; `retries` is the counter before
the pre-increment (`retries += 1`), and `now` the current virtual time.  The
result is the list of attempt start times together with the settled state:
a retry is scheduled `pollInterval` later while `retries < maxRetries`,
otherwise the signal settles into `NotFoundError` (resolved-undefined case)
or into the thrown cause. -/
def immRunT {T : Type} (fetchAt : Nat → FetchOutcome T)
    (pollInterval maxRetries retries now : Nat) : List Nat × AsyncResultM T :=
  match fetchAt retries with
  | .found v => ([now], .completed v)
  | .notFound =>
    if _h : retries + 1 < maxRetries then
      let rest := immRunT fetchAt pollInterval maxRetries (retries + 1)
        (now + pollInterval)
      (now :: rest.1, rest.2)
    else ([now], .error .notFoundE)
  | .threw e =>
    if _h : retries + 1 < maxRetries then
      let rest := immRunT fetchAt pollInterval maxRetries (retries + 1)
        (now + pollInterval)
      (now :: rest.1, rest.2)
    else ([now], .error (.causeE e))
termination_by maxRetries - retries
decreasing_by
  all_goals omega

/-- Closure state of one `immutableEntrySignal`: the permanent `cached` flag
and the signal state. -/
structure ImmState (T : Type) where
  cached : Bool
  result : AsyncResultM T
deriving DecidableEq, Repr

/-- Model of the fetch `.then` success branch: set `cached` and publish the
completed value. -/
def imm_onFound {T : Type} (_s : ImmState T) (value : T) : ImmState T :=
  { cached := true, result := .completed value }

/-- Model of `immutableEntrySignal`'s `unwatched` callback: a cached signal
is left untouched, otherwise the state resets to pending. -/
def imm_unwatched {T : Type} (s : ImmState T) : ImmState T :=
  if s.cached then s else { s with result := .pending }

/-- Model of `immutableEntrySignal`'s `watched` callback's synchronous state
change: none (`if (cached) return;` and otherwise only `tryFetch` runs). -/
def imm_watched {T : Type} (s : ImmState T) : ImmState T :=
  s

/-- Whether the `watched` callback starts a fetch session: only when not
cached. -/
def imm_watchedStartsFetch {T : Type} (s : ImmState T) : Bool :=
  !s.cached

/-- One full deactivation/reactivation cycle of `immutableEntrySignal`. -/
def imm_cycle {T : Type} (s : ImmState T) : ImmState T :=
  imm_watched (imm_unwatched s)

/-! ## Poll-loop scheduling model

The self-rescheduling `setTimeout` chain shared by the mutable/collection
signals, counting fetches in flight and scheduled timers.  `watch` models the
`watched` callback (sets `active` and immediately calls `fetch()`, which
passes its `active` guard and launches a fetch); `settle` models a fetch
settling (its `.finally` schedules a timer only if `active`); `timerFire`
models a timer firing (the scheduled `fetch()` launches a fetch only if
`active`); `unwatch` clears `active` and cancels nothing. -/

structure PollState where
  active : Bool
  inFlight : Nat
  timers : Nat
deriving DecidableEq, Repr

inductive PollEv where
  | watch
  | unwatch
  | settle
  | timerFire
deriving DecidableEq, Repr

def pollStep (s : PollState) : PollEv → PollState
  | .watch => { s with active := true, inFlight := s.inFlight + 1 }
  | .unwatch => { s with active := false }
  | .settle =>
    { s with inFlight := s.inFlight - 1,
             timers := if s.active then s.timers + 1 else s.timers }
  | .timerFire =>
    { s with timers := s.timers - 1,
             inFlight := if s.active then s.inFlight + 1 else s.inFlight }

/-- An event is possible in a state: watching requires an unwatched signal,
a settle requires a fetch in flight, a timer firing requires a pending
timer. -/
def pollValid (s : PollState) : PollEv → Bool
  | .watch => !s.active
  | .unwatch => s.active
  | .settle => 1 ≤ s.inFlight
  | .timerFire => 1 ≤ s.timers

def pollRun (s : PollState) (evs : List PollEv) : PollState :=
  evs.foldl pollStep s

def validFrom (s : PollState) : List PollEv → Bool
  | [] => true
  | e :: es => pollValid s e && validFrom (pollStep s e) es

/-- The idle initial state: no observer, nothing in flight. -/
def pollInit : PollState :=
  { active := false, inFlight := 0, timers := 0 }

/-! ## joinAsyncMap (aggregation combinator) -/

/-- The error-policy configuration `{errors: "fail_fast" | "filter_out"}` of
the aggregation combinator (default `fail_fast`). -/
inductive JoinErrOption where
  | fail_fast
  | filter_out
deriving DecidableEq, Repr

def asyncIsPending {T : Type} : AsyncResultM T → Bool
  | .pending => true
  | _ => false

/-- The key-value pairs of the children that are `completed`, with their
values extracted, in map order. -/
def completedEntries {K T : Type} (m : List (K × AsyncResultM T)) : List (K × T) :=
  m.filterMap fun p =>
    match p.2 with
    | .completed v => some (p.1, v)
    | _ => none

/-- The first error among the children, in map order (the representative
cause carried by a fail-fast aggregate). -/
def firstError {K T : Type} : List (K × AsyncResultM T) → Option ErrM
  | [] => none
  | (_, .error e) :: _ => some e
  | _ :: rest => firstError rest

/-- Modelled from the spec: the implementation of `joinAsyncMap` is not part
of the source tree (only its tests are), so this follows §4.7 of the spec:
read every child's current result; if any child is pending the aggregate is
pending; otherwise under the default (`fail_fast`) policy an erroring child
makes the aggregate an error carrying one representative cause, else the
aggregate completes with the mapping of all values; under `filter_out`,
erroring children are excluded and the aggregate completes with the
surviving values. -/
def joinAsyncMap {K T : Type} (m : List (K × AsyncResultM T))
    (errOption : JoinErrOption) : AsyncResultM (List (K × T)) :=
  if m.any fun p => asyncIsPending p.2 then .pending
  else
    match errOption with
    | .filter_out => .completed (completedEntries m)
    | .fail_fast =>
      match firstError m with
      | some e => .error e
      | none => .completed (completedEntries m)

theorem areArrayHashesEqual_eq_true_iff (array1 array2 : List HoloHashM) :
    areArrayHashesEqual array1 array2 = true ↔ array1 = array2 := by
  induction array1 generalizing array2 with
  | nil =>
    cases array2 <;> simp [areArrayHashesEqual]
  | cons x xs ih =>
    cases array2 with
    | nil => simp [areArrayHashesEqual]
    | cons y ys =>
      by_cases hlen : xs.length = ys.length
      · have h2 : areArrayHashesEqual xs ys = true ↔ xs = ys := ih ys
        simp [areArrayHashesEqual, hlen] at h2 ⊢
        intro _
        exact h2
      · have hne : xs ≠ ys := fun h => hlen (by rw [h])
        simp [areArrayHashesEqual, hlen, hne]

theorem jsInsertSorted_perm {A : Type} (cmp : A → A → Int) (x : A) (l : List A) :
    List.Perm (jsInsertSorted cmp x l) (x :: l) := by
  induction l with
  | nil => simp [jsInsertSorted]
  | cons y ys ih =>
    by_cases h : cmp y x ≤ 0
    · simp only [jsInsertSorted, if_pos h]
      exact List.Perm.trans (List.Perm.cons y ih) (List.Perm.swap x y ys)
    · simp [jsInsertSorted, if_neg h]

theorem jsStableSort_foldl_perm {A : Type} (cmp : A → A → Int) (l acc : List A) :
    List.Perm (l.foldl (fun a x => jsInsertSorted cmp x a) acc) (acc ++ l) := by
  induction l generalizing acc with
  | nil => simp
  | cons x xs ih =>
    simp only [List.foldl_cons]
    have h1 := ih (jsInsertSorted cmp x acc)
    have h2 : List.Perm (jsInsertSorted cmp x acc ++ xs) ((x :: acc) ++ xs) :=
      List.Perm.append_right xs (jsInsertSorted_perm cmp x acc)
    have h3 : List.Perm ((x :: acc) ++ xs) (acc ++ x :: xs) := by
      simpa using List.perm_middle.symm
    exact h1.trans (h2.trans h3)

theorem jsStableSort_perm {A : Type} (cmp : A → A → Int) (l : List A) :
    List.Perm (jsStableSort cmp l) l := by
  simpa using jsStableSort_foldl_perm cmp l []

theorem mem_jsInsertSorted {A : Type} (cmp : A → A → Int) (x z : A) (l : List A)
    (hz : z ∈ jsInsertSorted cmp x l) : z = x ∨ z ∈ l := by
  have := (jsInsertSorted_perm cmp x l).mem_iff.mp hz
  simpa using this

theorem jsInsertSorted_sorted {A : Type} (cmp : A → A → Int) (key : A → Int)
    (hck : ∀ a b, cmp a b ≤ 0 ↔ key a ≤ key b)
    (x : A) (l : List A) (hl : List.Pairwise (fun a b => key a ≤ key b) l) :
    List.Pairwise (fun a b => key a ≤ key b) (jsInsertSorted cmp x l) := by
  induction l with
  | nil => simp [jsInsertSorted]
  | cons y ys ih =>
    rcases List.pairwise_cons.mp hl with ⟨hy, hys⟩
    by_cases h : cmp y x ≤ 0
    · simp only [jsInsertSorted, if_pos h]
      refine List.pairwise_cons.mpr ⟨?_, ih hys⟩
      intro z hz
      rcases mem_jsInsertSorted cmp x z ys hz with hzx | hzys
      · rw [hzx]
        exact (hck y x).mp h
      · exact hy z hzys
    · simp only [jsInsertSorted, if_neg h]
      have hxy : key x ≤ key y := by
        have := (hck y x).not.mp h
        omega
      refine List.pairwise_cons.mpr ⟨?_, hl⟩
      intro z hz
      rcases List.mem_cons.mp hz with hzy | hzys
      · rw [hzy]
        exact hxy
      · exact le_trans hxy (hy z hzys)

theorem jsStableSort_sorted {A : Type} (cmp : A → A → Int) (key : A → Int)
    (hck : ∀ a b, cmp a b ≤ 0 ↔ key a ≤ key b) (l : List A) :
    List.Pairwise (fun a b => key a ≤ key b) (jsStableSort cmp l) := by
  suffices h : ∀ acc, List.Pairwise (fun a b => key a ≤ key b) acc →
      List.Pairwise (fun a b => key a ≤ key b)
        (l.foldl (fun a x => jsInsertSorted cmp x a) acc) by
    exact h [] (by simp)
  induction l with
  | nil => intro acc hacc; simpa using hacc
  | cons x xs ih =>
    intro acc hacc
    simp only [List.foldl_cons]
    exact ih (jsInsertSorted cmp x acc) (jsInsertSorted_sorted cmp key hck x acc hacc)

theorem jsStableSort_deterministic {A : Type} (cmp : A → A → Int) (key : A → Int)
    (hck : ∀ a b, cmp a b ≤ 0 ↔ key a ≤ key b) (l1 l2 : List A)
    (hperm : List.Perm l1 l2) (hnodup : (l1.map key).Nodup) :
    jsStableSort cmp l1 = jsStableSort cmp l2 := by
  have hp1 : List.Perm (jsStableSort cmp l1) l1 := jsStableSort_perm cmp l1
  have hp2 : List.Perm (jsStableSort cmp l2) l2 := jsStableSort_perm cmp l2
  have hp : List.Perm (jsStableSort cmp l1) (jsStableSort cmp l2) :=
    hp1.trans (hperm.trans hp2.symm)
  have hn1 : ((jsStableSort cmp l1).map key).Nodup :=
    ((hp1.map key).nodup_iff).mpr hnodup
  have hn2 : ((jsStableSort cmp l2).map key).Nodup := ((hp.map key).nodup_iff).mp hn1
  have hs1 := jsStableSort_sorted cmp key hck l1
  have hs2 := jsStableSort_sorted cmp key hck l2
  have hne1 : List.Pairwise (fun a b => key a ≠ key b) (jsStableSort cmp l1) :=
    (List.pairwise_map).mp hn1
  have hne2 : List.Pairwise (fun a b => key a ≠ key b) (jsStableSort cmp l2) :=
    (List.pairwise_map).mp hn2
  have hlt1 : List.Pairwise (fun a b => key a < key b) (jsStableSort cmp l1) := by
    have := hs1.and hne1
    exact this.imp (fun h => lt_of_le_of_ne h.1 h.2)
  have hlt2 : List.Pairwise (fun a b => key a < key b) (jsStableSort cmp l2) := by
    have := hs2.and hne2
    exact this.imp (fun h => lt_of_le_of_ne h.1 h.2)
  haveI : IsAntisymm A (fun a b => key a < key b) :=
    ⟨fun a b h1 h2 => absurd h2 (not_lt_of_gt h1)⟩
  exact List.eq_of_perm_of_sorted hp hlt1 hlt2

/-! ## Claim theorems -/

theorem map_range_shift (p : Nat) : ∀ (m t : Nat),
    List.map (fun k => t + k * p) (List.range (m + 1))
      = t :: List.map (fun k => t + p + k * p) (List.range m) := by
  intro m
  induction m with
  | zero =>
    intro t
    simp [List.range_succ]
  | succ m ih =>
    intro t
    have harith : t + (m + 1) * p = t + p + m * p := by ring
    calc List.map (fun k => t + k * p) (List.range (m + 1 + 1))
        = List.map (fun k => t + k * p) (List.range (m + 1)) ++ [t + (m + 1) * p] := by
          rw [List.range_succ, List.map_append]
          simp
      _ = (t :: List.map (fun k => t + p + k * p) (List.range m)) ++ [t + (m + 1) * p] := by
          rw [ih t]
      _ = t :: (List.map (fun k => t + p + k * p) (List.range m) ++ [t + p + m * p]) := by
          simp [harith]
      _ = t :: List.map (fun k => t + p + k * p) (List.range (m + 1)) := by
          rw [List.range_succ, List.map_append]
          simp

theorem immRunT_const_notFound {T : Type} (p N : Nat) :
    ∀ m r t, N = r + m + 1 →
    immRunT (fun _ => (FetchOutcome.notFound : FetchOutcome T)) p N r t
      = ((List.range (m + 1)).map (fun k => t + k * p), .error .notFoundE) := by
  intro m
  induction m with
  | zero =>
    intro r t hN
    rw [immRunT]
    have hlt : ¬ r + 1 < N := by omega
    simp [hlt, List.range_succ]
  | succ m ih =>
    intro r t hN
    rw [immRunT]
    have hlt : r + 1 < N := by omega
    have hrec := ih (r + 1) (t + p) (by omega)
    simp only [hlt, dif_pos, hrec]
    rw [map_range_shift p (m + 1) t]

theorem immRunT_const_threw {T : Type} (p N e : Nat) :
    ∀ m r t, N = r + m + 1 →
    immRunT (fun _ => (FetchOutcome.threw e : FetchOutcome T)) p N r t
      = ((List.range (m + 1)).map (fun k => t + k * p), .error (.causeE e)) := by
  intro m
  induction m with
  | zero =>
    intro r t hN
    rw [immRunT]
    have hlt : ¬ r + 1 < N := by omega
    simp [hlt, List.range_succ]
  | succ m ih =>
    intro r t hN
    rw [immRunT]
    have hlt : r + 1 < N := by omega
    have hrec := ih (r + 1) (t + p) (by omega)
    simp only [hlt, dif_pos, hrec]
    rw [map_range_shift p (m + 1) t]

/-- C1: with retry budget `N ≥ 1`, a fetch that always resolves to
not-found makes `immutableEntrySignal` perform exactly `N` fetch attempts, at
times `0, p, 2p, …, (N-1)·p` (spaced at the configured interval), and settle
into the terminal `NotFoundError`; a fetch that always throws cause `e` is
retried under the same budget and at the same times, settling into a
terminal error state that differs from the not-found one only by the carried
cause. -/
theorem immutableEntrySignal_retryBudget {T : Type} (p N e : Nat) (hN : 1 ≤ N) :
    immRunT (fun _ => (FetchOutcome.notFound : FetchOutcome T)) p N 0 0
      = ((List.range N).map (fun k => k * p), .error .notFoundE)
    ∧ immRunT (fun _ => (FetchOutcome.threw e : FetchOutcome T)) p N 0 0
      = ((List.range N).map (fun k => k * p), .error (.causeE e)) := by
  have hsplit : N = 0 + (N - 1) + 1 := by omega
  have h1 := @immRunT_const_notFound T p N (N - 1) 0 0 hsplit
  have h2 := @immRunT_const_threw T p N e (N - 1) 0 0 hsplit
  have hrange : N - 1 + 1 = N := by omega
  rw [hrange] at h1 h2
  simp only [Nat.zero_add] at h1 h2
  exact ⟨h1, h2⟩

/-- Witness for C1 at the default budget 4 and default 1000 ms interval. -/
theorem immutableEntrySignal_retryBudget_witness :
    immRunT (fun _ => (FetchOutcome.notFound : FetchOutcome Nat)) 1000 4 0 0
      = ([0, 1000, 2000, 3000], .error .notFoundE)
    ∧ immRunT (fun _ => (FetchOutcome.threw 7 : FetchOutcome Nat)) 1000 4 0 0
      = ([0, 1000, 2000, 3000], .error (.causeE 7)) := by
  constructor
  · rw [(immutableEntrySignal_retryBudget 1000 4 7 (by decide)).1]
    decide
  · rw [(immutableEntrySignal_retryBudget 1000 4 7 (by decide)).2]
    decide

/-- C2 counterexample: `collectionSignal`'s fetch `.catch` handler performs no
active-flag check, so a fetch rejection that settles after the last observer
detached still overwrites the deactivated session's pending state with an
error — the write is not discarded. -/
theorem collectionSignal_staleErrorWrite_counterexample :
    (coll_unwatched ⟨true, some [], .completed []⟩).active = false
    ∧ (coll_unwatched ⟨true, some [], .completed []⟩).result = .pending
    ∧ (coll_onFetchError (coll_unwatched ⟨true, some [], .completed []⟩) 3).1.result
        = .error (.causeE 3)
    ∧ (coll_onFetchError (coll_unwatched ⟨true, some [], .completed []⟩) 3).2 = true := by
  decide

/-- C2 amended: the active-flag gate does hold for the completed-value writes
(`maybeSet` in the collection and live-links signals), for the deletes push
handler, and for scheduled poll fetches, all of which are discarded after
deactivation; the collection signal's fetch-rejection error write (and the
flag-less immutable-entry signal) are not gated. -/
theorem signals_activeFlag_gatesValueWrites
    (s1 : CollectionState) (s2 : LiveLinksState) (s3 : DeletesState)
    (newLinks : List LinkM) (orig : HoloHashM) (d : SignedDeleteM)
    (ps : PollState)
    (h1 : s1.active = false) (h2 : s2.active = false) (h3 : s3.active = false)
    (hp : ps.active = false) :
    coll_maybeSet s1 newLinks = (s1, false)
    ∧ liveLinks_maybeSet s2 newLinks = (s2, false)
    ∧ deletesForEntry_onEntryDeleted orig s3 d = (s3, false)
    ∧ (pollStep ps .timerFire).inFlight = ps.inFlight := by
  refine ⟨?_, ?_, ?_, ?_⟩
  · simp [coll_maybeSet, h1]
  · simp [liveLinks_maybeSet, h2]
  · simp [deletesForEntry_onEntryDeleted, h3]
  · simp [pollStep, hp]

/-- Witness for the amended C2 statement at concrete deactivated states. -/
theorem signals_activeFlag_gatesValueWrites_witness :
    coll_maybeSet ⟨false, none, .pending⟩ [] = (⟨false, none, .pending⟩, false)
    ∧ liveLinks_maybeSet ⟨false, none, .pending⟩ [] = (⟨false, none, .pending⟩, false)
    ∧ deletesForEntry_onEntryDeleted ⟨HashTypeM.action, 0⟩ ⟨false, none, .pending⟩
        ⟨⟨HashTypeM.action, 1⟩, 0, ⟨HashTypeM.action, 0⟩⟩ = (⟨false, none, .pending⟩, false)
    ∧ (pollStep ⟨false, 0, 1⟩ .timerFire).inFlight = 0 :=
  signals_activeFlag_gatesValueWrites ⟨false, none, .pending⟩ ⟨false, none, .pending⟩
    ⟨false, none, .pending⟩ [] ⟨HashTypeM.action, 0⟩
    ⟨⟨HashTypeM.action, 1⟩, 0, ⟨HashTypeM.action, 0⟩⟩ ⟨false, 0, 1⟩ rfl rfl rfl rfl

/-- C3: every mutable/collection signal resets its state to pending in its
`unwatched` callback (collection, live-links, deletes-for-entry,
latest-version, all-revisions, live-query, deleted-links), while for the
immutable-entry signal a state reached through a successful fetch (which
sets `cached`) is retained unchanged across every number of
deactivation/reactivation cycles, still carries the completed value, and a
reactivation starts no fetch. -/
theorem signals_resetOnDeactivation_and_immutableRetention
    (s1 : CollectionState) (s2 : LiveLinksState) (s3 : DeletesState)
    (s4 : LatestVersionState Nat) (s5 : AllRevisionsState Nat)
    (s6 : QueryEntriesState Nat) (s7 : DeletedLinksState)
    (t : ImmState Nat) (v : Nat) (k : Nat) :
    (coll_unwatched s1).result = .pending
    ∧ (liveLinks_unwatched s2).result = .pending
    ∧ (deletes_unwatched s3).result = .pending
    ∧ (latestVersion_unwatched s4).result = .pending
    ∧ (allRevisions_unwatched s5).result = .pending
    ∧ (query_unwatched s6).result = .pending
    ∧ (deletedLinks_unwatched s7).result = .pending
    ∧ imm_cycle^[k] (imm_onFound t v) = imm_onFound t v
    ∧ (imm_onFound t v).result = .completed v
    ∧ imm_watchedStartsFetch (imm_onFound t v) = false :=
  ⟨rfl, rfl, rfl, rfl, rfl, rfl, rfl, Function.iterate_fixed rfl k, rfl, rfl⟩

/-- C4 counterexample: deactivating while a fetch is in flight and
immediately reactivating launches the new session's first fetch while the old
one is still in flight — two fetches overlap, and the trace is a valid
deactivation/reactivation sequence. -/
theorem pollLoop_overlap_across_reactivation :
    validFrom pollInit [PollEv.watch, PollEv.unwatch, PollEv.watch] = true
    ∧ (pollRun pollInit [PollEv.watch, PollEv.unwatch, PollEv.watch]).inFlight = 2 := by
  decide

theorem pollRun_nowatch_invariant (evs : List PollEv) :
    ∀ s : PollState, (∀ e ∈ evs, e ≠ PollEv.watch) → validFrom s evs = true →
    s.inFlight + s.timers ≤ 1 →
    (pollRun s evs).inFlight + (pollRun s evs).timers ≤ 1 := by
  induction evs with
  | nil =>
    intro s _ _ hinv
    simpa [pollRun] using hinv
  | cons e es ih =>
    intro s hw hv hinv
    simp only [validFrom, Bool.and_eq_true] at hv
    have hw1 : e ≠ PollEv.watch := hw e (List.mem_cons_self e es)
    have hw2 : ∀ x ∈ es, x ≠ PollEv.watch := fun x hx => hw x (List.mem_cons_of_mem e hx)
    have hstep : (pollStep s e).inFlight + (pollStep s e).timers ≤ 1 := by
      cases e with
      | watch => exact absurd rfl hw1
      | unwatch => simpa [pollStep] using hinv
      | settle =>
        have hfl : 1 ≤ s.inFlight := by
          have := hv.1
          simp [pollValid] at this
          exact this
        by_cases ha : s.active = true
        · simp [pollStep, ha]
          omega
        · simp only [Bool.not_eq_true] at ha
          simp [pollStep, ha]
          omega
      | timerFire =>
        have htm : 1 ≤ s.timers := by
          have := hv.1
          simp [pollValid] at this
          exact this
        by_cases ha : s.active = true
        · simp [pollStep, ha]
          omega
        · simp only [Bool.not_eq_true] at ha
          simp [pollStep, ha]
          omega
    simpa [pollRun] using ih (pollStep s e) hw2 hv.2 hstep

/-- C4 amended: within a single activation session — any valid event
sequence after the initial watch that contains no further watch — at most one
fetch is ever in flight; the overlap arises only across a deactivation
followed by a reactivation. -/
theorem pollLoop_singleSession_noOverlap (evs : List PollEv)
    (hw : ∀ e ∈ evs, e ≠ PollEv.watch)
    (hv : validFrom (pollStep pollInit PollEv.watch) evs = true) :
    (pollRun (pollStep pollInit PollEv.watch) evs).inFlight ≤ 1 := by
  have h := pollRun_nowatch_invariant evs (pollStep pollInit PollEv.watch) hw hv (by decide)
  omega

/-- Witness for the amended C4 statement on a settle/reschedule trace. -/
theorem pollLoop_singleSession_noOverlap_witness :
    (pollRun (pollStep pollInit PollEv.watch)
      [PollEv.settle, PollEv.timerFire, PollEv.settle, PollEv.unwatch]).inFlight ≤ 1 :=
  pollLoop_singleSession_noOverlap
    [PollEv.settle, PollEv.timerFire, PollEv.settle, PollEv.unwatch]
    (by decide) (by decide)

/-- C5 counterexample: two links with equal timestamps and different
create-link hashes; the comparator breaks no tie, the stable sort keeps the
input order, and the two orderings of the same set of links yield different
sequences. -/
theorem sortLinks_tieOrder_counterexample :
    List.Perm
      [(⟨⟨HashTypeM.entry, 0⟩, ⟨HashTypeM.entry, 1⟩, 10, ⟨HashTypeM.action, 1⟩⟩ : LinkM),
        ⟨⟨HashTypeM.entry, 0⟩, ⟨HashTypeM.entry, 2⟩, 10, ⟨HashTypeM.action, 2⟩⟩]
      [⟨⟨HashTypeM.entry, 0⟩, ⟨HashTypeM.entry, 2⟩, 10, ⟨HashTypeM.action, 2⟩⟩,
        ⟨⟨HashTypeM.entry, 0⟩, ⟨HashTypeM.entry, 1⟩, 10, ⟨HashTypeM.action, 1⟩⟩]
    ∧ jsStableSort sortLinksByTimestampAscending
        [⟨⟨HashTypeM.entry, 0⟩, ⟨HashTypeM.entry, 1⟩, 10, ⟨HashTypeM.action, 1⟩⟩,
          ⟨⟨HashTypeM.entry, 0⟩, ⟨HashTypeM.entry, 2⟩, 10, ⟨HashTypeM.action, 2⟩⟩]
      = [⟨⟨HashTypeM.entry, 0⟩, ⟨HashTypeM.entry, 1⟩, 10, ⟨HashTypeM.action, 1⟩⟩,
          ⟨⟨HashTypeM.entry, 0⟩, ⟨HashTypeM.entry, 2⟩, 10, ⟨HashTypeM.action, 2⟩⟩]
    ∧ jsStableSort sortLinksByTimestampAscending
        [⟨⟨HashTypeM.entry, 0⟩, ⟨HashTypeM.entry, 2⟩, 10, ⟨HashTypeM.action, 2⟩⟩,
          ⟨⟨HashTypeM.entry, 0⟩, ⟨HashTypeM.entry, 1⟩, 10, ⟨HashTypeM.action, 1⟩⟩]
      = [⟨⟨HashTypeM.entry, 0⟩, ⟨HashTypeM.entry, 2⟩, 10, ⟨HashTypeM.action, 2⟩⟩,
          ⟨⟨HashTypeM.entry, 0⟩, ⟨HashTypeM.entry, 1⟩, 10, ⟨HashTypeM.action, 1⟩⟩]
    ∧ jsStableSort sortLinksByTimestampAscending
        [⟨⟨HashTypeM.entry, 0⟩, ⟨HashTypeM.entry, 1⟩, 10, ⟨HashTypeM.action, 1⟩⟩,
          ⟨⟨HashTypeM.entry, 0⟩, ⟨HashTypeM.entry, 2⟩, 10, ⟨HashTypeM.action, 2⟩⟩]
      ≠ jsStableSort sortLinksByTimestampAscending
        [⟨⟨HashTypeM.entry, 0⟩, ⟨HashTypeM.entry, 2⟩, 10, ⟨HashTypeM.action, 2⟩⟩,
          ⟨⟨HashTypeM.entry, 0⟩, ⟨HashTypeM.entry, 1⟩, 10, ⟨HashTypeM.action, 1⟩⟩] := by
  refine ⟨List.Perm.swap _ _ _, by decide, by decide, by decide⟩

/-- C5 amended: the canonical ordering sorts ascending by timestamp with a
stable sort and is a permutation of its input; ties are kept in input order
(no identifier tie-break), so the same set of items yields the same sequence
only when the timestamps involved are pairwise distinct. -/
theorem sortLinks_deterministic_of_distinctTimestamps
    (l1 l2 : List LinkM) (hperm : List.Perm l1 l2)
    (hnodup : (l1.map (·.timestamp)).Nodup) :
    jsStableSort sortLinksByTimestampAscending l1
      = jsStableSort sortLinksByTimestampAscending l2
    ∧ List.Pairwise (fun a b => a.timestamp ≤ b.timestamp)
        (jsStableSort sortLinksByTimestampAscending l1)
    ∧ List.Perm (jsStableSort sortLinksByTimestampAscending l1) l1 := by
  have hck : ∀ a b : LinkM,
      sortLinksByTimestampAscending a b ≤ 0 ↔ a.timestamp ≤ b.timestamp := by
    intro a b
    unfold sortLinksByTimestampAscending
    omega
  exact ⟨jsStableSort_deterministic sortLinksByTimestampAscending (·.timestamp)
          hck l1 l2 hperm hnodup,
        jsStableSort_sorted sortLinksByTimestampAscending (·.timestamp) hck l1,
        jsStableSort_perm sortLinksByTimestampAscending l1⟩

/-- Witness for the amended C5 statement on a distinct-timestamp pair. -/
theorem sortLinks_deterministic_of_distinctTimestamps_witness :
    jsStableSort sortLinksByTimestampAscending
      [(⟨⟨HashTypeM.entry, 0⟩, ⟨HashTypeM.entry, 1⟩, 1, ⟨HashTypeM.action, 1⟩⟩ : LinkM),
        ⟨⟨HashTypeM.entry, 0⟩, ⟨HashTypeM.entry, 2⟩, 2, ⟨HashTypeM.action, 2⟩⟩]
      = jsStableSort sortLinksByTimestampAscending
        [⟨⟨HashTypeM.entry, 0⟩, ⟨HashTypeM.entry, 2⟩, 2, ⟨HashTypeM.action, 2⟩⟩,
          ⟨⟨HashTypeM.entry, 0⟩, ⟨HashTypeM.entry, 1⟩, 1, ⟨HashTypeM.action, 1⟩⟩] :=
  (sortLinks_deterministic_of_distinctTimestamps
    [⟨⟨HashTypeM.entry, 0⟩, ⟨HashTypeM.entry, 1⟩, 1, ⟨HashTypeM.action, 1⟩⟩,
      ⟨⟨HashTypeM.entry, 0⟩, ⟨HashTypeM.entry, 2⟩, 2, ⟨HashTypeM.action, 2⟩⟩]
    [⟨⟨HashTypeM.entry, 0⟩, ⟨HashTypeM.entry, 2⟩, 2, ⟨HashTypeM.action, 2⟩⟩,
      ⟨⟨HashTypeM.entry, 0⟩, ⟨HashTypeM.entry, 1⟩, 1, ⟨HashTypeM.action, 1⟩⟩]
    (List.Perm.swap _ _ _) (by decide)).1

/-- C6 (code bug): the second disjunct of `liveLinksSignal`'s LinkCreated
base comparison retypes the event's base address to AGENT, but the
constructor guarantees `innerBaseAddress` is never AGENT-typed, so the
disjunct can never hold: an event whose base is the agent-identity form of
an entry-typed configured base does not match (first conjunct), a signal
configured with an agent key does not match the literal agent form (second
conjunct), and only the entry-typed form matches (third conjunct). -/
theorem liveLinksSignal_agentBase_noMatch :
    liveLinks_matchesLinkCreated 0 (liveLinks_innerBase ⟨HashTypeM.entry, 5⟩) 0
      (retype ⟨HashTypeM.entry, 5⟩ HashTypeM.agent) = false
    ∧ liveLinks_matchesLinkCreated 0 (liveLinks_innerBase ⟨HashTypeM.agent, 7⟩) 0
      ⟨HashTypeM.agent, 7⟩ = false
    ∧ liveLinks_matchesLinkCreated 0 (liveLinks_innerBase ⟨HashTypeM.agent, 7⟩) 0
      (retype ⟨HashTypeM.agent, 7⟩ HashTypeM.entry) = true := by
  decide

/-- C7 counterexample: a matching EntryDeleted push whose action is already
in the cached deletes list leaves the deduplicated identifier sequence
unchanged, yet `deletesForEntrySignal` publishes anyway — the push edit is
not routed through a change-detection gate. -/
theorem deletesForEntrySignal_pushPublishesUnchanged_counterexample :
    (deletesForEntry_onEntryDeleted ⟨HashTypeM.action, 0⟩
        ⟨true, some [⟨⟨HashTypeM.action, 9⟩, 5, ⟨HashTypeM.action, 0⟩⟩],
          .completed [⟨⟨HashTypeM.action, 9⟩, 5, ⟨HashTypeM.action, 0⟩⟩]⟩
        ⟨⟨HashTypeM.action, 9⟩, 5, ⟨HashTypeM.action, 0⟩⟩).2 = true
    ∧ (deletesForEntry_onEntryDeleted ⟨HashTypeM.action, 0⟩
        ⟨true, some [⟨⟨HashTypeM.action, 9⟩, 5, ⟨HashTypeM.action, 0⟩⟩],
          .completed [⟨⟨HashTypeM.action, 9⟩, 5, ⟨HashTypeM.action, 0⟩⟩]⟩
        ⟨⟨HashTypeM.action, 9⟩, 5, ⟨HashTypeM.action, 0⟩⟩).1.deletes
      = some [⟨⟨HashTypeM.action, 9⟩, 5, ⟨HashTypeM.action, 0⟩⟩] := by
  decide

/-- C7 amended: the link-collection signals do route push edits through the
change-detection gate (`maybeSet` publishes nothing when the canonical
identifier sequence equals the cached one), but the deletes-for-entry push
handler publishes on every matching event without comparing against the
previously published value. -/
theorem pushEdits_changeDetection_perVariant
    (s : CollectionState) (L newLinks : List LinkM)
    (s3 : DeletesState) (d : SignedDeleteM) (orig : HoloHashM)
    (hact : s.active = true) (hl : s.links = some L)
    (heq : (jsStableSort sortLinksByTimestampAscending (uniquifyLinks newLinks)).map
        (·.create_link_hash) = L.map (·.create_link_hash))
    (hact3 : s3.active = true) (hmatch : d.deletes_address = orig) :
    coll_maybeSet s newLinks = (s, false)
    ∧ (deletesForEntry_onEntryDeleted orig s3 d).2 = true := by
  constructor
  · have hde : areArrayHashesEqual
        ((jsStableSort sortLinksByTimestampAscending (uniquifyLinks newLinks)).map
          (·.create_link_hash)) (L.map (·.create_link_hash)) = true :=
      (areArrayHashesEqual_eq_true_iff _ _).mpr heq
    simp [coll_maybeSet, hact, hl, hde]
  · simp [deletesForEntry_onEntryDeleted, hact3, hmatch]

/-- Witness for the amended C7 statement. -/
theorem pushEdits_changeDetection_perVariant_witness :
    coll_maybeSet ⟨true, some [], .completed []⟩ []
      = (⟨true, some [], .completed []⟩, false)
    ∧ (deletesForEntry_onEntryDeleted ⟨HashTypeM.action, 0⟩ ⟨true, none, .pending⟩
        ⟨⟨HashTypeM.action, 9⟩, 5, ⟨HashTypeM.action, 0⟩⟩).2 = true :=
  pushEdits_changeDetection_perVariant ⟨true, some [], .completed []⟩ [] []
    ⟨true, none, .pending⟩ ⟨⟨HashTypeM.action, 9⟩, 5, ⟨HashTypeM.action, 0⟩⟩
    ⟨HashTypeM.action, 0⟩ rfl rfl rfl rfl rfl

theorem asyncIsPending_iff {T : Type} (r : AsyncResultM T) :
    asyncIsPending r = true ↔ r = .pending := by
  cases r <;> simp [asyncIsPending]

theorem joinAnyPending_false {K T : Type} (m : List (K × AsyncResultM T))
    (hnp : ∀ p ∈ m, p.2 ≠ AsyncResultM.pending) :
    (m.any fun q => asyncIsPending q.2) = false := by
  simp only [List.any_eq_false]
  intro q hq
  cases hq2 : q.2 with
  | pending => exact absurd hq2 (hnp q hq)
  | completed v => simp [asyncIsPending]
  | error e => simp [asyncIsPending]

theorem firstError_mem {K T : Type} (m : List (K × AsyncResultM T)) (e : ErrM)
    (h : firstError m = some e) : ∃ k, (k, AsyncResultM.error e) ∈ m := by
  induction m with
  | nil => simp [firstError] at h
  | cons p rest ih =>
    obtain ⟨k, r⟩ := p
    cases r with
    | pending =>
      obtain ⟨k2, hk⟩ := ih (by simpa [firstError] using h)
      exact ⟨k2, List.mem_cons_of_mem _ hk⟩
    | completed v =>
      obtain ⟨k2, hk⟩ := ih (by simpa [firstError] using h)
      exact ⟨k2, List.mem_cons_of_mem _ hk⟩
    | error e2 =>
      have he : e2 = e := by simpa [firstError] using h
      exact ⟨k, by simp [he]⟩

theorem firstError_isSome_of_error {K T : Type} (m : List (K × AsyncResultM T))
    (herr : ∃ p ∈ m, ∃ e, p.2 = AsyncResultM.error e) :
    ∃ e, firstError m = some e := by
  induction m with
  | nil => simp at herr
  | cons p rest ih =>
    obtain ⟨k, r⟩ := p
    cases r with
    | pending =>
      obtain ⟨q, hq, e, he⟩ := herr
      rcases List.mem_cons.mp hq with hq1 | hq2
      · rw [hq1] at he
        simp at he
      · obtain ⟨e2, he2⟩ := ih ⟨q, hq2, e, he⟩
        exact ⟨e2, by simpa [firstError] using he2⟩
    | completed v =>
      obtain ⟨q, hq, e, he⟩ := herr
      rcases List.mem_cons.mp hq with hq1 | hq2
      · rw [hq1] at he
        simp at he
      · obtain ⟨e2, he2⟩ := ih ⟨q, hq2, e, he⟩
        exact ⟨e2, by simpa [firstError] using he2⟩
    | error e2 => exact ⟨e2, by simp [firstError]⟩

theorem firstError_none_of_completed {K T : Type} (m : List (K × AsyncResultM T))
    (hc : ∀ p ∈ m, ∃ v, p.2 = AsyncResultM.completed v) : firstError m = none := by
  induction m with
  | nil => simp [firstError]
  | cons p rest ih =>
    obtain ⟨k, r⟩ := p
    obtain ⟨v, hv⟩ := hc (k, r) (List.mem_cons_self _ _)
    simp only at hv
    subst hv
    simpa [firstError] using ih fun q hq => hc q (List.mem_cons_of_mem _ hq)

/-- C8 (modelled from the spec, as the `joinAsyncMap` implementation is not
in the source tree): any pending child makes the aggregate pending under
either policy; with no pending child, `filter_out` completes with exactly
the surviving (completed) entries; under the default `fail_fast` policy an
erroring child makes the aggregate an error carrying one of the children's
causes, and with all children completed the aggregate completes with the
mapping of all values. -/
theorem joinAsyncMap_policy {K T : Type} (m : List (K × AsyncResultM T)) :
    ((∃ p ∈ m, p.2 = AsyncResultM.pending) →
      joinAsyncMap m JoinErrOption.fail_fast = .pending
      ∧ joinAsyncMap m JoinErrOption.filter_out = .pending)
    ∧ ((∀ p ∈ m, p.2 ≠ AsyncResultM.pending) →
      joinAsyncMap m JoinErrOption.filter_out = .completed (completedEntries m))
    ∧ ((∀ p ∈ m, p.2 ≠ AsyncResultM.pending) →
      (∃ p ∈ m, ∃ e, p.2 = AsyncResultM.error e) →
      ∃ k e, (k, AsyncResultM.error e) ∈ m
        ∧ joinAsyncMap m JoinErrOption.fail_fast = .error e)
    ∧ ((∀ p ∈ m, ∃ v, p.2 = AsyncResultM.completed v) →
      joinAsyncMap m JoinErrOption.fail_fast = .completed (completedEntries m)) := by
  refine ⟨?_, ?_, ?_, ?_⟩
  · rintro ⟨p, hp, hpend⟩
    have hany : (m.any fun q => asyncIsPending q.2) = true :=
      List.any_eq_true.mpr ⟨p, hp, (asyncIsPending_iff p.2).mpr hpend⟩
    exact ⟨by simp [joinAsyncMap, hany], by simp [joinAsyncMap, hany]⟩
  · intro hnp
    simp [joinAsyncMap, joinAnyPending_false m hnp]
  · intro hnp herr
    obtain ⟨e, hfe⟩ := firstError_isSome_of_error m herr
    obtain ⟨k, hk⟩ := firstError_mem m e hfe
    exact ⟨k, e, hk, by simp [joinAsyncMap, joinAnyPending_false m hnp, hfe]⟩
  · intro hc
    have hnp : ∀ p ∈ m, p.2 ≠ AsyncResultM.pending := by
      intro p hp
      obtain ⟨v, hv⟩ := hc p hp
      simp [hv]
    simp [joinAsyncMap, joinAnyPending_false m hnp,
      firstError_none_of_completed m hc]

/-- Witness for C8 at concrete child mappings. -/
theorem joinAsyncMap_policy_witness :
    joinAsyncMap [((0 : Nat), (AsyncResultM.pending : AsyncResultM Nat))]
        JoinErrOption.fail_fast = .pending
    ∧ joinAsyncMap
        [((0 : Nat), (AsyncResultM.error (.causeE 2) : AsyncResultM Nat)),
          (1, .completed 5)] JoinErrOption.filter_out = .completed [(1, 5)]
    ∧ (∃ k e, (k, AsyncResultM.error e)
          ∈ [((0 : Nat), (AsyncResultM.error (.causeE 2) : AsyncResultM Nat)),
              (1, .completed 5)]
        ∧ joinAsyncMap
            [((0 : Nat), (AsyncResultM.error (.causeE 2) : AsyncResultM Nat)),
              (1, .completed 5)] JoinErrOption.fail_fast = .error e)
    ∧ joinAsyncMap [((0 : Nat), (AsyncResultM.completed 3 : AsyncResultM Nat))]
        JoinErrOption.fail_fast = .completed [(0, 3)] := by
  refine ⟨?_, ?_, ?_, ?_⟩
  · exact ((joinAsyncMap_policy _).1 ⟨(0, .pending), by simp, rfl⟩).1
  · rw [(joinAsyncMap_policy _).2.1 (by decide)]
    decide
  · exact (joinAsyncMap_policy _).2.2.1 (by decide)
      ⟨(0, .error (.causeE 2)), by simp, .causeE 2, rfl⟩
  · rw [(joinAsyncMap_policy _).2.2.2 ?hc]
    · decide
    · rintro p hp
      rcases List.mem_singleton.mp hp with h
      rw [h]
      exact ⟨3, rfl⟩

/-- C9 counterexample: the previous value holds one deleted link, the new
value appends a second one — the outer create-link membership changes — yet
the positional nested-list loop hits the missing previous entry and aborts
the whole update, contradicting the claim that an abort happens only while
the outer membership is unchanged. -/
theorem deletedLinks_abort_despite_membership_change :
    deletedLinks_maybeSet
      (some ([(⟨⟨HashTypeM.action, 1⟩, 1, ⟨HashTypeM.entry, 0⟩⟩,
        [⟨⟨HashTypeM.action, 11⟩, 1⟩])] : List DeletedPairM))
      ([(⟨⟨HashTypeM.action, 1⟩, 1, ⟨HashTypeM.entry, 0⟩⟩, [⟨⟨HashTypeM.action, 11⟩, 1⟩]),
        (⟨⟨HashTypeM.action, 2⟩, 2, ⟨HashTypeM.entry, 0⟩⟩,
          [⟨⟨HashTypeM.action, 12⟩, 2⟩])] : List DeletedPairM)
      = DLOutcome.aborted
    ∧ (canonDeletedLinks
        ([(⟨⟨HashTypeM.action, 1⟩, 1, ⟨HashTypeM.entry, 0⟩⟩, [⟨⟨HashTypeM.action, 11⟩, 1⟩]),
          (⟨⟨HashTypeM.action, 2⟩, 2, ⟨HashTypeM.entry, 0⟩⟩,
            [⟨⟨HashTypeM.action, 12⟩, 2⟩])] : List DeletedPairM)).map (·.1.hash)
      ≠ ([(⟨⟨HashTypeM.action, 1⟩, 1, ⟨HashTypeM.entry, 0⟩⟩,
          [⟨⟨HashTypeM.action, 11⟩, 1⟩])] : List DeletedPairM).map (·.1.hash) := by
  decide

theorem dlAbortAux_iff (ns ps : List DeletedPairM) :
    dlAbortAux ns ps = true ↔
      ps.length < ns.length
      ∨ ∃ i, ∃ (h1 : i < ns.length) (h2 : i < ps.length),
          (ns.get ⟨i, h1⟩).2.map (·.hash) ≠ (ps.get ⟨i, h2⟩).2.map (·.hash) := by
  induction ns generalizing ps with
  | nil => simp [dlAbortAux]
  | cons n ns ih =>
    cases ps with
    | nil => simp [dlAbortAux]
    | cons p ps =>
      cases hm : areArrayHashesEqual (n.2.map (·.hash)) (p.2.map (·.hash)) with
      | false =>
        have hmne : n.2.map (·.hash) ≠ p.2.map (·.hash) := by
          intro hcontra
          have hc2 := (areArrayHashesEqual_eq_true_iff _ _).mpr hcontra
          rw [hm] at hc2
          simp at hc2
        constructor
        · intro _
          exact Or.inr ⟨0, Nat.succ_pos _, Nat.succ_pos _, hmne⟩
        · intro _
          rw [dlAbortAux]
          simp [hm]
      | true =>
        have hmeq : n.2.map (·.hash) = p.2.map (·.hash) :=
          (areArrayHashesEqual_eq_true_iff _ _).mp hm
        have hstep : dlAbortAux (n :: ns) (p :: ps) = dlAbortAux ns ps := by
          rw [dlAbortAux]
          simp [hm]
        rw [hstep, ih ps]
        constructor
        · rintro (hlen | ⟨i, h1, h2, hmm⟩)
          · exact Or.inl (by simpa using Nat.succ_lt_succ hlen)
          · exact Or.inr ⟨i + 1, Nat.succ_lt_succ h1, Nat.succ_lt_succ h2,
              by simpa using hmm⟩
        · rintro (hlen | ⟨i, h1, h2, hmm⟩)
          · exact Or.inl (by simp only [List.length_cons] at hlen; omega)
          · cases i with
            | zero => exact absurd hmeq (by simpa using hmm)
            | succ j =>
              exact Or.inr ⟨j, by simp only [List.length_cons] at h1; omega,
                by simp only [List.length_cons] at h2; omega, by simpa using hmm⟩

/-- C9 amended: the deleted-links reconciler aborts the whole update exactly
when a previous value exists and, walking the canonically sorted new list
positionally against it, some index either has no previous entry (the new
list is longer) or carries a nested deletion-hash sequence different from
the previous entry at that position — irrespective of whether the outer
create-link membership changed. -/
theorem deletedLinks_abort_characterization (prev new : List DeletedPairM) :
    deletedLinks_maybeSet (some prev) new = DLOutcome.aborted ↔
      prev.length < (canonDeletedLinks new).length
      ∨ ∃ i, ∃ (h1 : i < (canonDeletedLinks new).length) (h2 : i < prev.length),
          ((canonDeletedLinks new).get ⟨i, h1⟩).2.map (·.hash)
            ≠ (prev.get ⟨i, h2⟩).2.map (·.hash) := by
  have hmain : deletedLinks_maybeSet (some prev) new = DLOutcome.aborted ↔
      dlAbortAux (canonDeletedLinks new) prev = true := by
    unfold deletedLinks_maybeSet
    cases h : dlAbortAux (canonDeletedLinks new) prev with
    | false =>
      simp only [h]
      constructor
      · intro hcontra
        rw [if_neg (by simp)] at hcontra
        split at hcontra <;> simp_all
      · intro hcontra
        simp at hcontra
    | true => simp [h]
  rw [hmain, dlAbortAux_iff]

/-- Witness for the amended C9 statement: an empty previous value aborts on
any non-empty new value (the new list is longer at index 0). -/
theorem deletedLinks_abort_characterization_witness :
    deletedLinks_maybeSet (some [])
      ([(⟨⟨HashTypeM.action, 2⟩, 2, ⟨HashTypeM.entry, 0⟩⟩,
        [⟨⟨HashTypeM.action, 12⟩, 2⟩])] : List DeletedPairM)
      = DLOutcome.aborted :=
  (deletedLinks_abort_characterization []
    [(⟨⟨HashTypeM.action, 2⟩, 2, ⟨HashTypeM.entry, 0⟩⟩,
      [⟨⟨HashTypeM.action, 12⟩, 2⟩])]).mpr
    (Or.inl (by decide))

/-- C10: publishing an error does not clear the links accumulator of the
collection or live-links signal, and a subsequent successful fetch whose
canonically ordered, deduplicated identifier sequence equals the cached one
is suppressed by change detection, leaving the signal in its error state —
no error-to-completed transition happens while the content is
identifier-equal to the cached value. -/
theorem collectionSignal_errorRetainsAccumulator
    (s : CollectionState) (s2 : LiveLinksState)
    (L L2 newLinks newLinks2 : List LinkM) (c : Nat) (er er2 : ErrM)
    (hact : s.active = true) (hl : s.links = some L) (hres : s.result = .error er)
    (heq : (jsStableSort sortLinksByTimestampAscending (uniquifyLinks newLinks)).map
        (·.create_link_hash) = L.map (·.create_link_hash))
    (hact2 : s2.active = true) (hl2 : s2.links = some L2)
    (hres2 : s2.result = .error er2)
    (heq2 : (jsStableSort sortLinksByTimestampAscending (uniquifyLinks newLinks2)).map
        (·.create_link_hash) = L2.map (·.create_link_hash)) :
    (coll_onFetchError s c).1.links = s.links
    ∧ coll_maybeSet s newLinks = (s, false)
    ∧ (coll_maybeSet s newLinks).1.result = .error er
    ∧ liveLinks_maybeSet s2 newLinks2 = (s2, false)
    ∧ (liveLinks_maybeSet s2 newLinks2).1.result = .error er2 := by
  have hde : areArrayHashesEqual
      ((jsStableSort sortLinksByTimestampAscending (uniquifyLinks newLinks)).map
        (·.create_link_hash)) (L.map (·.create_link_hash)) = true :=
    (areArrayHashesEqual_eq_true_iff _ _).mpr heq
  have hde2 : areArrayHashesEqual
      ((jsStableSort sortLinksByTimestampAscending (uniquifyLinks newLinks2)).map
        (·.create_link_hash)) (L2.map (·.create_link_hash)) = true :=
    (areArrayHashesEqual_eq_true_iff _ _).mpr heq2
  have h1 : coll_maybeSet s newLinks = (s, false) := by
    simp [coll_maybeSet, hact, hl, hde]
  have h2 : liveLinks_maybeSet s2 newLinks2 = (s2, false) := by
    simp [liveLinks_maybeSet, hact2, hl2, hde2]
  refine ⟨rfl, h1, ?_, h2, ?_⟩
  · rw [h1]
    exact hres
  · rw [h2]
    exact hres2

/-- Witness for C10 at concrete error states. -/
theorem collectionSignal_errorRetainsAccumulator_witness :
    (coll_onFetchError ⟨true, some [], .error (.causeE 1)⟩ 2).1.links = some []
    ∧ coll_maybeSet ⟨true, some [], .error (.causeE 1)⟩ []
      = (⟨true, some [], .error (.causeE 1)⟩, false)
    ∧ (coll_maybeSet ⟨true, some [], .error (.causeE 1)⟩ []).1.result
      = .error (.causeE 1)
    ∧ liveLinks_maybeSet ⟨true, some [], .error (.causeE 2)⟩ []
      = (⟨true, some [], .error (.causeE 2)⟩, false)
    ∧ (liveLinks_maybeSet ⟨true, some [], .error (.causeE 2)⟩ []).1.result
      = .error (.causeE 2) :=
  collectionSignal_errorRetainsAccumulator
    ⟨true, some [], .error (.causeE 1)⟩ ⟨true, some [], .error (.causeE 2)⟩
    [] [] [] [] 2 (.causeE 1) (.causeE 2)
    rfl rfl rfl rfl rfl rfl rfl rfl
